import Mathlib

/-!
Verification development for `azure_sdk_trim`, a tool that prunes unused
version subdirectories of a vendored Azure SDK tree.

The embedding models the filesystem as a tree of named entries, and the
operations of `azure_sdk_trim.py`:

* `matchModelsLine`   — the regex match `re.match(r'from [.](v\d[^.]+)[.]models import *', line)`
                        performed by `VersionedApiDir._parse_models` on each
                        line of `models.py`;
* `parseModels`       — `VersionedApiDir._parse_models`;
* `keepVersions`      — `VersionedApiDir.keep`;
* `computeVersions`   — the `VersionedApiDir.versions` property, with its
                        `_versions` cache;
* `trimOtherVersions` — `VersionedApiDir.trim_other_versions`;
* `purgeApiDir`       — `purge_api_dir` (disk usage before/after the trim);
* `findApiDirs`       — `find_api_dirs` (recursive walk for `models.py`).

Fallible code (reading a manifest that exists but cannot be read raises in
Python) is modelled with `Except Unit`.
-/

set_option autoImplicit false

namespace AzureSdkTrim

/-- A filesystem entry: a file (with a readability flag, its text split in
lines, and a size in bytes) or a directory with its children. -/
inductive FsEntry where
  | file (name : String) (readable : Bool) (lines : List String) (size : Nat)
  | dir (name : String) (children : List FsEntry)

/-- The name of an entry. -/
def FsEntry.name : FsEntry → String
  | .file n _ _ _ => n
  | .dir n _ => n

/-- Whether an entry is a directory (Python `Path.is_dir()`). -/
def FsEntry.isDir : FsEntry → Bool
  | .file _ _ _ _ => false
  | .dir _ _ => true

/-- Whether a name matches the glob pattern `v*_*` used in
`self.path.glob('v*_*')`: the whole name is a `v`, then anything, then an
underscore, then anything. -/
def matchesGlob (s : String) : Bool :=
  match s.toList with
  | 'v' :: rest => rest.any (fun c => decide (c = '_'))
  | _ => false

/-- Whether a name matches `re.match(r'v\d', name)`: it starts with `v`
followed by a digit. -/
def matchesVDigit (s : String) : Bool :=
  match s.toList with
  | 'v' :: c :: _ => c.isDigit
  | _ => false

/-- The test applied to the maximal dot-free token following `from .`:
the group `(v\d[^.]+)` requires the token to be `v`, a digit and at least
one further character (all dot-free by construction), and the pattern then
requires the 14 characters after the token to be `.models import` (the
final `*` of the regex quantifies the space, and `re.match` leaves the
remainder of the line unconstrained). -/
def matchVersionTok (rest tok : List Char) : Option String :=
  match tok with
  | c0 :: d :: _ :: _ =>
    if c0 = 'v' ∧ d.isDigit = true ∧
        (rest.drop tok.length).take 14 = ".models import".toList then
      some (String.mk tok)
    else none
  | _ => none

/-- Match the part of the line after `from .`: split off the maximal
dot-free token (the only candidate for the group `(v\d[^.]+)`, since
`[^.]+` cannot cross a dot and must be followed by a literal dot) and test
it. -/
def matchModelsTail (rest : List Char) : Option String :=
  matchVersionTok rest (rest.takeWhile (fun c => !decide (c = '.')))

/-- The per-line match of `VersionedApiDir._parse_models`:
`re.match(r'from [.](v\d[^.]+)[.]models import *', line)`, returning the
captured group when the match succeeds.

`re.match` anchors at the start of the line only; the final `*` of the
pattern quantifies the space character, so the pattern constrains the line
to begin with `from .<token>.models import` where `<token>` is `v`, a
digit, and one or more further non-dot characters, and puts no constraint
on the rest of the line. -/
def matchModelsLine (line : String) : Option String :=
  if line.toList.take 6 = "from .".toList then
    matchModelsTail (line.toList.drop 6)
  else
    none

/-- `VersionedApiDir._parse_models`, acting on the immediate children of
the API directory.  If no child is named `models.py` the parse returns no
versions; if that child is a directory (`read_text` raises
`IsADirectoryError`) or an unreadable file (`read_text` raises, e.g.
`PermissionError`), the Python exception is modelled as `Except.error`;
otherwise every line is matched and the captured versions are returned in
encounter order. -/
def parseModels (cs : List FsEntry) : Except Unit (List String) :=
  match cs.find? (fun e => decide (FsEntry.name e = "models.py")) with
  | none => .ok []
  | some (.dir _ _) => .error ()
  | some (.file _ readable lns _) =>
    if readable then .ok (lns.filterMap matchModelsLine) else .error ()

/-- The mutable state of a `VersionedApiDir` object together with the
current contents of its directory: `children` is the filesystem state of
the API directory, `keep` is the `_keep` field, and `cache` is the
`_versions` memo (`None` in Python ↦ `none`). -/
structure ApiDirState where
  children : List FsEntry
  keep : Finset String
  cache : Option (Finset String)

/-- `VersionedApiDir.__init__`: fresh object over a directory. -/
def mkApiDir (cs : List FsEntry) : ApiDirState :=
  { children := cs, keep := ∅, cache := none }

/-- `VersionedApiDir.keep`: add override versions to `_keep` and
invalidate the `_versions` cache. -/
def keepVersions (s : ApiDirState) (vs : List String) : ApiDirState :=
  { s with keep := s.keep ∪ vs.toFinset, cache := none }

/-- The `VersionedApiDir.versions` property: return the cached set if
present, otherwise parse `models.py`, union with `_keep`, and cache.
Returns the set together with the updated object state. -/
def computeVersions (s : ApiDirState) : Except Unit (Finset String × ApiDirState) :=
  match s.cache with
  | some v => .ok (v, s)
  | none =>
    match parseModels s.children with
    | .error err => .error err
    | .ok parsed =>
      let v := parsed.toFinset ∪ s.keep
      .ok (v, { s with cache := some v })

/-- The deletion test of the loop body of
`VersionedApiDir.trim_other_versions`: the entry is yielded by
`glob('v*_*')`, is a directory, its name is not in `self.versions`, and
it matches `re.match(r'v\d', name)`. -/
def shouldDelete (v : Finset String) (e : FsEntry) : Bool :=
  matchesGlob (FsEntry.name e) && FsEntry.isDir e &&
    !decide (FsEntry.name e ∈ v) && matchesVDigit (FsEntry.name e)

/-- `VersionedApiDir.trim_other_versions`: if the directory is not
versioned, return 0; otherwise delete every child selected by
`shouldDelete` and return the new state with the number of deleted
directories. -/
def trimOtherVersions (s : ApiDirState) : Except Unit (ApiDirState × Nat) :=
  match computeVersions s with
  | .error err => .error err
  | .ok (v, s1) =>
    if v = ∅ then .ok (s1, 0)
    else
      .ok ({ s1 with children := s1.children.filter (fun e => !shouldDelete v e) },
        (s1.children.filter (fun e => shouldDelete v e)).length)

mutual

/-- Disk usage of an entry in bytes (the `du -ksx` collaborator): the size
of a file, or the sum over a directory's children. -/
def entrySize : FsEntry → Nat
  | .file _ _ _ sz => sz
  | .dir _ cs => sizeList cs

/-- Disk usage of a list of entries. -/
def sizeList : List FsEntry → Nat
  | [] => 0
  | e :: es => entrySize e + sizeList es

end

/-- `purge_api_dir`: measure usage, trim, measure again; the reported
figures are the number of deleted version directories and the bytes
reclaimed (`usage - new_usage`). -/
def purgeApiDir (s : ApiDirState) : Except Unit (ApiDirState × Nat × Nat) :=
  match trimOtherVersions s with
  | .error err => .error err
  | .ok (s1, n) => .ok (s1, n, sizeList s.children - sizeList s1.children)

/-- A record produced by `find_api_dirs`: the API directory's path,
relative to the base directory and given as a list of name components, and
the `VersionedApiDir` object state. -/
structure DirRecord where
  path : List String
  state : ApiDirState

/-- One `VersionedApiDir(sub_path)` construction followed by the
`is_versioned` test of `find_api_dirs`: build a fresh object over the
directory at `p` with children `cs`, query `versions` (which parses and
caches), and keep the record only when the set is non-empty. -/
def mkRecord (p : List String) (cs : List FsEntry) : Except Unit (List DirRecord) :=
  match computeVersions (mkApiDir cs) with
  | .error err => .error err
  | .ok (v, s1) => if v = ∅ then .ok [] else .ok [⟨p, s1⟩]

/-- Iterate `mkRecord` once per child of the directory named `models.py`
(each `rglob('models.py')` hit of this directory yields one
`VersionedApiDir` construction for the parent). -/
def mkRecordsAux (p : List String) (cs : List FsEntry) : Nat → Except Unit (List DirRecord)
  | 0 => .ok []
  | k + 1 =>
    match mkRecord p cs with
    | .error err => .error err
    | .ok r =>
      match mkRecordsAux p cs k with
      | .error err => .error err
      | .ok rest => .ok (r ++ rest)

/-- All records contributed by the directory at path `p` with children
`cs`: one per child named `models.py` (a file or a directory named
`models.py` both match `rglob('models.py')`, and both make the parent the
candidate API directory). -/
def mkRecords (p : List String) (cs : List FsEntry) : Except Unit (List DirRecord) :=
  mkRecordsAux p cs (cs.countP (fun e => decide (FsEntry.name e = "models.py")))

mutual

/-- Records contributed by the subtree rooted at entry `e`, whose parent
directory has path `p`. -/
def scanEntry (p : List String) : FsEntry → Except Unit (List DirRecord)
  | .file _ _ _ _ => .ok []
  | .dir n cs =>
    match mkRecords (p ++ [n]) cs with
    | .error err => .error err
    | .ok a =>
      match scanEntries (p ++ [n]) cs with
      | .error err => .error err
      | .ok b => .ok (a ++ b)

/-- Records contributed by the subtrees of a list of sibling entries whose
parent directory has path `p`. -/
def scanEntries (p : List String) : List FsEntry → Except Unit (List DirRecord)
  | [] => .ok []
  | e :: es =>
    match scanEntry p e with
    | .error err => .error err
    | .ok a =>
      match scanEntries p es with
      | .error err => .error err
      | .ok b => .ok (a ++ b)

end

/-- `find_api_dirs(base_dir)`: one record per `models.py` entry anywhere
under the base directory (whose children are `base`), keeping only
versioned directories.  Errors raised while parsing any manifest
propagate and abort the scan. -/
def findApiDirs (base : List FsEntry) : Except Unit (List DirRecord) :=
  match mkRecords [] base with
  | .error err => .error err
  | .ok a =>
    match scanEntries [] base with
    | .error err => .error err
    | .ok b => .ok (a ++ b)

mutual

/-- Well-formedness of a filesystem entry: inside every directory the
children's names are pairwise distinct (as on a real filesystem). -/
def wfEntry : FsEntry → Bool
  | .file _ _ _ _ => true
  | .dir _ cs => wfList cs

/-- Well-formedness of a list of sibling entries. -/
def wfList : List FsEntry → Bool
  | [] => true
  | e :: es =>
    wfEntry e && !decide (FsEntry.name e ∈ es.map FsEntry.name) && wfList es

end

/-- Spec-side token test for `specExactCapture`: the token must be `v`,
a digit and zero or more further non-dot characters, and the line must end
with exactly `.models import *` right after the token. -/
def specExactTok (rest tok : List Char) : Option String :=
  match tok with
  | c0 :: d :: _ =>
    if c0 = 'v' ∧ d.isDigit = true ∧
        rest.drop tok.length = ".models import *".toList then
      some (String.mk tok)
    else none
  | _ => none

/-- Spec-side definition, following the words of the spec and of claim C4
only (to be compared with `matchModelsLine`, which follows the code): a
line of the exact shape `from .<version>.models import *` — nothing before
or after — where `<version>` matches `v<digit><non-dot characters>*`
(zero or more non-dot characters after the digit). -/
def specExactCapture (line : String) : Option String :=
  if line.toList.take 6 = "from .".toList then
    specExactTok (line.toList.drop 6)
      ((line.toList.drop 6).takeWhile (fun c => !decide (c = '.')))
  else
    none

/-- Declarative characterisation of the lines from which the code's
matcher captures a version token: the line begins with
`from .<version>.models import` (any suffix may follow) where `<version>`
is `v`, a digit, and one or more further non-dot characters. -/
def codeCaptureShape (line v : String) : Prop :=
  ∃ d ds rest, v.toList = 'v' :: d :: ds ∧ d.isDigit = true ∧ ds ≠ [] ∧
    ('.' ∉ v.toList) ∧
    line.toList = "from .".toList ++ v.toList ++ ".models import".toList ++ rest

/-- Concrete base directory holding one API directory `pkg` whose
`models.py` exists but is not readable. -/
def exUnreadableTree : List FsEntry :=
  [FsEntry.dir "pkg" [FsEntry.file "models.py" false ["from .v1_0.models import *"] 5]]

/-- Concrete example API directory: a manifest keeping `v7_0`, a kept
version folder, an unreferenced version folder, and a file whose name
merely looks like a version folder. -/
def exDir : List FsEntry :=
  [FsEntry.file "models.py" true ["from .v7_0.models import *"] 1,
   FsEntry.dir "v7_0" [],
   FsEntry.dir "v2020_01_01" [],
   FsEntry.file "v9_9" true [] 2]

/-- The contents of `exDir` after one trim pass: only the unreferenced
version directory `v2020_01_01` is gone. -/
def exDirTrimmed : List FsEntry :=
  [FsEntry.file "models.py" true ["from .v7_0.models import *"] 1,
   FsEntry.dir "v7_0" [],
   FsEntry.file "v9_9" true [] 2]

/-- Concrete base directory holding `exDir` as its only API directory. -/
def exScanTree : List FsEntry := [FsEntry.dir "pkg" exDir]

theorem computeVersions_state (s : ApiDirState) (v : Finset String) (s1 : ApiDirState)
    (h : computeVersions s = .ok (v, s1)) :
    s1.children = s.children ∧ s1.keep = s.keep ∧ s1.cache = some v := by
  unfold computeVersions at h
  cases hc : s.cache with
  | some w =>
    rw [hc] at h
    injection h with h1
    injection h1 with h2 h3
    subst h2
    subst h3
    exact ⟨rfl, rfl, hc⟩
  | none =>
    rw [hc] at h
    cases hp : parseModels s.children with
    | error err => rw [hp] at h; cases h
    | ok parsed =>
      rw [hp] at h
      injection h with h1
      injection h1 with h2 h3
      subst h3
      exact ⟨rfl, rfl, by rw [h2]⟩

theorem computeVersions_cached (s : ApiDirState) (v : Finset String)
    (h : s.cache = some v) : computeVersions s = .ok (v, s) := by
  unfold computeVersions
  rw [h]

theorem shouldDelete_iff (v : Finset String) (e : FsEntry) :
    shouldDelete v e = true ↔
      (FsEntry.isDir e = true ∧ matchesGlob (FsEntry.name e) = true ∧
        matchesVDigit (FsEntry.name e) = true ∧ FsEntry.name e ∉ v) := by
  simp only [shouldDelete, Bool.and_eq_true, Bool.not_eq_true', decide_eq_false_iff_not]
  tauto

theorem filter_not_filter {α : Type} (p : α → Bool) (l : List α) :
    (l.filter (fun a => !p a)).filter p = [] := by
  induction l with
  | nil => rfl
  | cons a l ih =>
    cases hpa : p a <;> simp [List.filter_cons, hpa, ih]

theorem filter_not_idem {α : Type} (p : α → Bool) (l : List α) :
    (l.filter (fun a => !p a)).filter (fun a => !p a) = l.filter (fun a => !p a) := by
  have hfun : (fun a => !p a && !p a) = fun a => !p a := funext fun a => Bool.and_self _
  rw [List.filter_filter, hfun]

theorem trim_ok_elim (s s2 : ApiDirState) (n : Nat)
    (ht : trimOtherVersions s = Except.ok (s2, n)) :
    ∃ v s1, computeVersions s = Except.ok (v, s1) ∧
      s1.children = s.children ∧ s1.keep = s.keep ∧ s1.cache = some v ∧
      ((v = ∅ ∧ s2 = s1 ∧ n = 0) ∨
        (v ≠ ∅ ∧
          s2 = { s1 with children := s1.children.filter (fun e => !shouldDelete v e) } ∧
          n = (s1.children.filter (fun e => shouldDelete v e)).length)) := by
  unfold trimOtherVersions at ht
  cases hcv : computeVersions s with
  | error err => rw [hcv] at ht; cases ht
  | ok pr =>
    obtain ⟨v, s1⟩ := pr
    rw [hcv] at ht
    dsimp only at ht
    obtain ⟨hch, hk, hca⟩ := computeVersions_state s v s1 hcv
    refine ⟨v, s1, rfl, hch, hk, hca, ?_⟩
    by_cases hv : v = ∅
    · rw [if_pos hv] at ht
      injection ht with h1
      injection h1 with h2 h3
      exact Or.inl ⟨hv, h2.symm, h3.symm⟩
    · rw [if_neg hv] at ht
      injection ht with h1
      injection h1 with h2 h3
      exact Or.inr ⟨hv, h2.symm, h3.symm⟩

theorem mem_filter_not_of_false {α : Type} {p : α → Bool} {l : List α} {a : α}
    (ha : a ∈ l) (hp : p a = false) : a ∈ l.filter (fun x => !p x) := by
  rw [List.mem_filter, hp]
  exact ⟨ha, rfl⟩

/-- Claim C1: for every versioned API directory record with a non-empty
keep-set, `trim_other_versions` deletes exactly the immediate child
directories whose name matches the glob `v*_*`, whose first character
after `v` is a digit, and whose name is not in the keep-set; afterwards
none of those children remain, and the returned count equals the number of
children so deleted. -/
theorem trim_deletes_exactly_unkept (s : ApiDirState) (v : Finset String)
    (s1 : ApiDirState) (hcv : computeVersions s = Except.ok (v, s1)) (hne : v ≠ ∅) :
    ∃ s2, trimOtherVersions s
        = Except.ok (s2, (s.children.filter (fun e => shouldDelete v e)).length) ∧
      ∀ e, e ∈ s2.children ↔ e ∈ s.children ∧
        ¬(FsEntry.isDir e = true ∧ matchesGlob (FsEntry.name e) = true ∧
          matchesVDigit (FsEntry.name e) = true ∧ FsEntry.name e ∉ v) := by
  obtain ⟨hch, hk, hca⟩ := computeVersions_state s v s1 hcv
  refine ⟨{ s1 with children := s1.children.filter (fun e => !shouldDelete v e) }, ?_, ?_⟩
  · unfold trimOtherVersions
    rw [hcv]
    dsimp only
    rw [if_neg hne, hch]
  · intro e
    constructor
    · intro h
      obtain ⟨he, hpe⟩ := List.mem_filter.mp h
      refine ⟨hch ▸ he, fun hcond => ?_⟩
      rw [(shouldDelete_iff v e).mpr hcond] at hpe
      cases hpe
    · rintro ⟨he, hncond⟩
      have hsd : shouldDelete v e = false := by
        cases hfl : shouldDelete v e
        · rfl
        · exact absurd ((shouldDelete_iff v e).mp hfl) hncond
      exact mem_filter_not_of_false (hch ▸ he) hsd

/-- Claim C2: children whose name is in the keep-set are never deleted by
`trim_other_versions` — they remain, entirely unchanged, among the
children afterwards — and the trim is purely subtractive on the immediate
children of the target directory (the surviving children are a sublist of
the original ones and the override set is untouched). -/
theorem trim_preserves_keepset (s : ApiDirState) (v : Finset String)
    (s1 s2 : ApiDirState) (n : Nat)
    (hcv : computeVersions s = Except.ok (v, s1))
    (ht : trimOtherVersions s = Except.ok (s2, n)) :
    (∀ e ∈ s.children, FsEntry.name e ∈ v → e ∈ s2.children) ∧
    s2.children.Sublist s.children ∧ s2.keep = s.keep := by
  obtain ⟨v', s1', hcv', hch, hk, hca, hcase⟩ := trim_ok_elim s s2 n ht
  rw [hcv] at hcv'
  injection hcv' with h1
  injection h1 with h2 h3
  subst h2
  subst h3
  rcases hcase with ⟨hv, hs2, hn⟩ | ⟨hv, hs2, hn⟩
  · subst hs2
    refine ⟨fun e he _ => hch ▸ he, ?_, hk⟩
    rw [hch]
  · subst hs2
    refine ⟨?_, ?_, hk⟩
    · intro e he hev
      have hsd : shouldDelete v e = false := by
        cases hfl : shouldDelete v e
        · rfl
        · exact absurd ((shouldDelete_iff v e).mp hfl).2.2.2 (not_not_intro hev)
      exact mem_filter_not_of_false (hch ▸ he) hsd
    · show (s1.children.filter (fun e => !shouldDelete v e)).Sublist s.children
      rw [hch]
      exact List.filter_sublist _

/-- Claim C3: a child whose name fails the version-folder test — it does
not match the glob `v*_*`, or its first character after `v` is not a digit
— is never deleted by `trim_other_versions`, regardless of the keep-set
contents. -/
theorem trim_never_deletes_nonversion_names (s s2 : ApiDirState) (n : Nat)
    (ht : trimOtherVersions s = Except.ok (s2, n)) :
    ∀ e ∈ s.children,
      (matchesGlob (FsEntry.name e) = false ∨ matchesVDigit (FsEntry.name e) = false) →
      e ∈ s2.children := by
  obtain ⟨v, s1, hcv, hch, hk, hca, hcase⟩ := trim_ok_elim s s2 n ht
  rcases hcase with ⟨hv, rfl, rfl⟩ | ⟨hv, rfl, rfl⟩
  · exact fun e he _ => hch ▸ he
  · intro e he hcond
    have hsd : shouldDelete v e = false := by
      rcases hcond with hg | hd
      · simp [shouldDelete, hg]
      · simp [shouldDelete, hd]
    exact mem_filter_not_of_false (hch ▸ he) hsd

/-- Claim C10: a child that is a plain file is never deleted by
`trim_other_versions`, even if its name looks like a version folder and is
not in the keep-set; only directories are ever removed. -/
theorem trim_never_deletes_files (s s2 : ApiDirState) (n : Nat)
    (ht : trimOtherVersions s = Except.ok (s2, n)) :
    ∀ e ∈ s.children, FsEntry.isDir e = false → e ∈ s2.children := by
  obtain ⟨v, s1, hcv, hch, hk, hca, hcase⟩ := trim_ok_elim s s2 n ht
  rcases hcase with ⟨hv, rfl, rfl⟩ | ⟨hv, rfl, rfl⟩
  · exact fun e he _ => hch ▸ he
  · intro e he hfile
    have hsd : shouldDelete v e = false := by
      simp [shouldDelete, hfile]
    exact mem_filter_not_of_false (hch ▸ he) hsd

theorem trim_second_run (s s2 : ApiDirState) (n : Nat)
    (ht : trimOtherVersions s = Except.ok (s2, n)) :
    trimOtherVersions s2 = Except.ok (s2, 0) := by
  obtain ⟨v, s1, hcv, hch, hk, hca, hcase⟩ := trim_ok_elim s s2 n ht
  have hc2 : s2.cache = some v := by
    rcases hcase with ⟨hv, hs2, hn⟩ | ⟨hv, hs2, hn⟩ <;> rw [hs2] <;> exact hca
  have hcv2 : computeVersions s2 = Except.ok (v, s2) := computeVersions_cached s2 v hc2
  unfold trimOtherVersions
  rw [hcv2]
  dsimp only
  rcases hcase with ⟨hv, hs2, hn⟩ | ⟨hv, hs2, hn⟩
  · rw [if_pos hv]
  · rw [if_neg hv]
    have hch2 : s2.children = s1.children.filter (fun e => !shouldDelete v e) := by
      rw [hs2]
    have h1 : s2.children.filter (fun e => !shouldDelete v e) = s2.children := by
      rw [hch2]
      exact filter_not_idem _ _
    have h2 : s2.children.filter (fun e => shouldDelete v e) = [] := by
      rw [hch2]
      exact filter_not_filter _ _
    rw [h1, h2]
    rfl

/-- Claim C9: running the prune pass twice in succession is idempotent:
given that the first run of `purge_api_dir` succeeded, the second run
deletes zero directories and reclaims zero bytes. -/
theorem purge_idempotent (s s2 : ApiDirState) (n b : Nat)
    (h : purgeApiDir s = Except.ok (s2, n, b)) :
    purgeApiDir s2 = Except.ok (s2, 0, 0) := by
  unfold purgeApiDir at h ⊢
  cases ht : trimOtherVersions s with
  | error err => rw [ht] at h; cases h
  | ok pr =>
    obtain ⟨s2', n'⟩ := pr
    rw [ht] at h
    injection h with h1
    injection h1 with h2 h3
    subst h2
    rw [trim_second_run s s2' n' ht]
    dsimp only
    rw [Nat.sub_self]

theorem mkRecordsAux_of_nil (p : List String) (cs : List FsEntry) (k : Nat)
    (h : mkRecord p cs = Except.ok []) : mkRecordsAux p cs k = Except.ok [] := by
  induction k with
  | zero => rfl
  | succ k ih =>
    unfold mkRecordsAux
    rw [h, ih]
    rfl

/-- Claim C5: a directory whose manifest is absent, empty, or yields no
parsed versions, and which has received no override versions, is excluded
from the scanner's output, and the pruner deletes none of its children,
returns 0, and leaves the directory's contents entirely unchanged. -/
theorem unversioned_dir_excluded_and_unchanged (p : List String) (cs : List FsEntry)
    (h : parseModels cs = Except.ok []) :
    mkRecords p cs = Except.ok [] ∧
    trimOtherVersions (mkApiDir cs)
      = Except.ok ({ mkApiDir cs with cache := some ∅ }, 0) := by
  have hc : computeVersions (mkApiDir cs)
      = Except.ok (∅, { mkApiDir cs with cache := some ∅ }) := by
    simp [computeVersions, mkApiDir, h]
  constructor
  · have hr : mkRecord p cs = Except.ok [] := by
      simp [mkRecord, hc]
    exact mkRecordsAux_of_nil p cs _ hr
  · simp [trimOtherVersions, hc]

/-- Claim C6 counterexample: on a base directory whose single API
directory `pkg` has a `models.py` that exists but cannot be read, the
scanner aborts the whole scan with an error instead of treating the
directory as having zero parsed versions and excluding it. -/
theorem scanner_aborts_on_unreadable_manifest :
    findApiDirs exUnreadableTree = Except.error () := by
  rfl

/-- Claim C6 amended: a directory whose manifest file is absent is treated
as having zero parsed versions, but a manifest file that exists and cannot
be read makes the parse raise, which propagates out of the record
construction and out of the directory walk, aborting the whole scan. -/
theorem unreadable_manifest_aborts_scan (p : List String) (cs : List FsEntry)
    (nm : String) (lns : List String) (sz : Nat) (dn : String)
    (hf : cs.find? (fun e => decide (FsEntry.name e = "models.py"))
        = some (FsEntry.file nm false lns sz)) :
    parseModels cs = Except.error () ∧ mkRecords p cs = Except.error () ∧
    scanEntry p (FsEntry.dir dn cs) = Except.error () := by
  have hp : parseModels cs = Except.error () := by
    unfold parseModels
    rw [hf]
    rfl
  have hcnt : 0 < cs.countP (fun e => decide (FsEntry.name e = "models.py")) := by
    rw [List.countP_pos_iff]
    exact ⟨FsEntry.file nm false lns sz, List.mem_of_find?_eq_some hf,
      @List.find?_some FsEntry (fun e => decide (FsEntry.name e = "models.py"))
        (FsEntry.file nm false lns sz) cs hf⟩
  obtain ⟨k, hk⟩ : ∃ k, cs.countP (fun e => decide (FsEntry.name e = "models.py")) = k + 1 :=
    ⟨cs.countP (fun e => decide (FsEntry.name e = "models.py")) - 1, by omega⟩
  have hmk : ∀ q : List String, mkRecords q cs = Except.error () := by
    intro q
    have hrecq : mkRecord q cs = Except.error () := by
      unfold mkRecord computeVersions mkApiDir
      dsimp only
      rw [hp]
    unfold mkRecords
    rw [hk]
    unfold mkRecordsAux
    rw [hrecq]
  refine ⟨hp, hmk p, ?_⟩
  unfold scanEntry
  rw [hmk (p ++ [dn])]

theorem foldl_keepVersions_state (ks : List (List String)) (s : ApiDirState) :
    ((ks.foldl keepVersions s).children = s.children) ∧
    ((ks.foldl keepVersions s).keep = ks.foldl (fun a k => a ∪ k.toFinset) s.keep) ∧
    ((ks.foldl keepVersions s).cache = if ks = [] then s.cache else none) := by
  induction ks generalizing s with
  | nil => exact ⟨rfl, rfl, rfl⟩
  | cons k ks ih =>
    obtain ⟨h1, h2, h3⟩ := ih (keepVersions s k)
    refine ⟨h1, h2, ?_⟩
    rw [List.foldl_cons, h3]
    by_cases hks : ks = []
    · simp [hks, keepVersions]
    · simp [hks]

/-- Claim C8: after any sequence of `keep` calls the `versions` property
returns exactly the union of the parsed versions and all override versions
supplied so far — the cached set is invalidated by every override
addition, so even a previously cached (possibly stale) value is never
returned — and supplying an override equal to an already-parsed version
changes neither the version set nor the deletion outcome. -/
theorem versions_fresh_union_of_overrides (s : ApiDirState) (l : List String)
    (ks : List (List String)) (w : String)
    (h : parseModels s.children = Except.ok l) :
    (ks ≠ [] → ∃ st, computeVersions (ks.foldl keepVersions s)
        = Except.ok (l.toFinset ∪ ks.foldl (fun a k => a ∪ k.toFinset) s.keep, st)) ∧
    (w ∈ l → ∀ s2 n, trimOtherVersions (mkApiDir s.children) = Except.ok (s2, n) →
      ∃ s3, trimOtherVersions (keepVersions (mkApiDir s.children) [w])
          = Except.ok (s3, n) ∧ s3.children = s2.children) := by
  constructor
  · intro hks
    obtain ⟨h1, h2, h3⟩ := foldl_keepVersions_state ks s
    rw [if_neg hks] at h3
    refine ⟨{ ks.foldl keepVersions s with
      cache := some (l.toFinset ∪ ks.foldl (fun a k => a ∪ k.toFinset) s.keep) }, ?_⟩
    unfold computeVersions
    rw [h3]
    dsimp only
    rw [h1, h, h2]
  · intro hw s2 n htrim
    have hwf : w ∈ l.toFinset := List.mem_toFinset.mpr hw
    have hne : l.toFinset ≠ ∅ := Finset.ne_empty_of_mem hwf
    have habsorb : l.toFinset ∪ {w} = l.toFinset :=
      Finset.union_eq_left.mpr (Finset.singleton_subset_iff.mpr hwf)
    have hA : computeVersions (mkApiDir s.children)
        = Except.ok (l.toFinset,
            { children := s.children, keep := ∅, cache := some l.toFinset }) := by
      simp [computeVersions, mkApiDir, h]
    have hB : computeVersions (keepVersions (mkApiDir s.children) [w])
        = Except.ok (l.toFinset,
            { children := s.children, keep := {w}, cache := some l.toFinset }) := by
      simp [computeVersions, keepVersions, mkApiDir, h, habsorb]
    rw [trimOtherVersions, hA] at htrim
    dsimp only at htrim
    rw [if_neg hne] at htrim
    injection htrim with h1
    injection h1 with h2 h3
    rw [trimOtherVersions, hB]
    dsimp only
    rw [if_neg hne]
    refine ⟨ApiDirState.mk (s.children.filter (fun e => !shouldDelete l.toFinset e))
      {w} (some l.toFinset), ?_, ?_⟩
    · rw [h3]
    · rw [← h2]

theorem takeWhile_nondot (xs ys : List Char) (hx : ('.' : Char) ∉ xs) :
    (xs ++ '.' :: ys).takeWhile (fun ch => !decide (ch = '.')) = xs := by
  induction xs with
  | nil => simp [List.takeWhile_cons]
  | cons a xs ih =>
    have ha : ¬a = '.' := by
      intro he
      rw [he] at hx
      exact hx (List.mem_cons_self _ _)
    rw [List.cons_append, List.takeWhile_cons, if_pos (by simp [ha]),
      ih fun hm => hx (List.mem_cons_of_mem a hm)]

theorem drop_takeWhile_length (p : Char → Bool) (l : List Char) :
    l.drop (l.takeWhile p).length = l.dropWhile p := by
  induction l with
  | nil => rfl
  | cons a l ih =>
    rw [List.takeWhile_cons, List.dropWhile_cons]
    cases hpa : p a
    · simp
    · simpa using ih

theorem matchVersionTok_some (rest tok : List Char) (v : String)
    (h : matchVersionTok rest tok = some v) :
    ∃ d c tl, tok = 'v' :: d :: c :: tl ∧ d.isDigit = true ∧
      (rest.drop tok.length).take 14 = ".models import".toList ∧
      v = String.mk tok := by
  rcases tok with _ | ⟨c0, _ | ⟨d, _ | ⟨c, tl⟩⟩⟩
  · exact Option.noConfusion h
  · exact Option.noConfusion h
  · exact Option.noConfusion h
  · have h' : (if c0 = 'v' ∧ d.isDigit = true ∧
        ((rest.drop (c0 :: d :: c :: tl).length).take 14 = ".models import".toList) then
        some (String.mk (c0 :: d :: c :: tl)) else none) = some v := h
    by_cases hcond : c0 = 'v' ∧ d.isDigit = true ∧
        (rest.drop (c0 :: d :: c :: tl).length).take 14 = ".models import".toList
    · rw [if_pos hcond] at h'
      injection h' with hv
      obtain ⟨hc0, hd, htake⟩ := hcond
      subst hc0
      exact ⟨d, c, tl, rfl, hd, htake, hv.symm⟩
    · rw [if_neg hcond] at h'
      exact Option.noConfusion h'

theorem matchVersionTok_eq_some (rest : List Char) (d c : Char) (tl : List Char)
    (hd : d.isDigit = true)
    (htake : (rest.drop ('v' :: d :: c :: tl).length).take 14 = ".models import".toList) :
    matchVersionTok rest ('v' :: d :: c :: tl) = some (String.mk ('v' :: d :: c :: tl)) :=
  if_pos ⟨rfl, hd, htake⟩

theorem capture_sound (line v : String) (h : matchModelsLine line = some v) :
    codeCaptureShape line v := by
  unfold matchModelsLine at h
  by_cases hpre : line.toList.take 6 = "from .".toList
  · rw [if_pos hpre] at h
    unfold matchModelsTail at h
    obtain ⟨d, c, tl, htok, hd, htake, hv⟩ := matchVersionTok_some _ _ _ h
    rw [htok] at htake hv
    refine ⟨d, c :: tl,
      ((line.toList.drop 6).drop ('v' :: d :: c :: tl).length).drop 14, ?_, hd, ?_, ?_, ?_⟩
    · rw [hv]
      rfl
    · simp
    · rw [hv]
      intro hmem
      have hmem' : ('.' : Char) ∈ 'v' :: d :: c :: tl := hmem
      rw [← htok] at hmem'
      have := List.mem_takeWhile_imp hmem'
      simp at this
    · rw [hv]
      show line.toList = "from .".toList ++
        ('v' :: d :: c :: tl) ++ ".models import".toList ++ _
      have hdw : (line.toList.drop 6).drop ('v' :: d :: c :: tl).length
          = (line.toList.drop 6).dropWhile (fun ch => !decide (ch = '.')) := by
        rw [← htok, drop_takeWhile_length]
      have hX : (line.toList.drop 6).drop ('v' :: d :: c :: tl).length
          = ".models import".toList ++
              ((line.toList.drop 6).drop ('v' :: d :: c :: tl).length).drop 14 := by
        conv_lhs => rw [← List.take_append_drop 14
          ((line.toList.drop 6).drop ('v' :: d :: c :: tl).length)]
        rw [htake]
      conv_lhs => rw [← List.take_append_drop 6 line.toList]
      rw [hpre, List.append_assoc, List.append_assoc]
      congr 1
      conv_lhs => rw [← List.takeWhile_append_dropWhile
        (fun ch => !decide (ch = '.')) (line.toList.drop 6)]
      rw [htok]
      congr 1
      rw [← hdw]
      exact hX
  · rw [if_neg hpre] at h
    exact Option.noConfusion h

theorem capture_complete (line v : String) (h : codeCaptureShape line v) :
    matchModelsLine line = some v := by
  obtain ⟨d, ds, restC, hv, hd, hds, hdot, hline⟩ := h
  obtain ⟨c, tl, rfl⟩ : ∃ c tl, ds = c :: tl := by
    cases ds with
    | nil => exact absurd rfl hds
    | cons c tl => exact ⟨c, tl, rfl⟩
  rw [List.append_assoc, List.append_assoc] at hline
  unfold matchModelsLine
  have hpre : line.toList.take 6 = "from .".toList := by
    rw [hline, show (6 : Nat) = ("from .".toList).length from rfl, List.take_left]
  rw [if_pos hpre]
  unfold matchModelsTail
  have hdrop : line.toList.drop 6
      = v.toList ++ (".models import".toList ++ restC) := by
    rw [hline, show (6 : Nat) = ("from .".toList).length from rfl, List.drop_left]
  rw [hdrop]
  have htw : (v.toList ++ (".models import".toList ++ restC)).takeWhile
      (fun ch => !decide (ch = '.')) = v.toList := by
    rw [show ((".models import".toList ++ restC) : List Char)
      = '.' :: ("models import".toList ++ restC) from rfl]
    exact takeWhile_nondot _ _ hdot
  rw [htw, hv]
  have htake : ((('v' :: d :: c :: tl) ++ (".models import".toList ++ restC)).drop
      ('v' :: d :: c :: tl).length).take 14 = ".models import".toList := by
    rw [List.drop_left, show (14 : Nat) = (".models import".toList).length from rfl,
      List.take_left]
  rw [matchVersionTok_eq_some _ d c tl hd htake, ← hv]
  rfl

/-- Claim C4 counterexample: the code's matcher and "line has the exact
shape `from .<version>.models import *` with `<version>` matching
`v<digit><non-dot characters>*`" disagree in both directions: the code
captures `v1_0` from a line whose text after `import` is not `*`, and the
code does not capture from `from .v1.models import *`, a line of the exact
shape whose version has no character after the digit. -/
theorem capture_differs_from_exact_shape :
    matchModelsLine "from .v1_0.models import junk" = some "v1_0" ∧
    specExactCapture "from .v1_0.models import junk" = none ∧
    specExactCapture "from .v1.models import *" = some "v1" ∧
    matchModelsLine "from .v1.models import *" = none :=
  ⟨rfl, rfl, rfl, rfl⟩

/-- Claim C4 amended: parsing a readable manifest captures the version
tokens of its lines in encounter order, and a line yields a token `v` if
and only if it begins with `from .<v>.models import` — with anything
allowed after `import` — where `<v>` is `v`, a digit, and at least one
further character, all dot-free. -/
theorem parse_models_capture_iff (lns : List String) (sz : Nat)
    (tail : List FsEntry) (line v : String) :
    parseModels (FsEntry.file "models.py" true lns sz :: tail)
      = Except.ok (lns.filterMap matchModelsLine) ∧
    (matchModelsLine line = some v ↔ codeCaptureShape line v) :=
  ⟨rfl, capture_sound line v, capture_complete line v⟩

theorem mkRecord_ok_shape (p : List String) (cs : List FsEntry) (rs : List DirRecord)
    (h : mkRecord p cs = Except.ok rs) :
    rs = [] ∨ ∃ st, rs = [DirRecord.mk p st] := by
  unfold mkRecord at h
  cases hcv : computeVersions (mkApiDir cs) with
  | error err => rw [hcv] at h; cases h
  | ok pr =>
    obtain ⟨v, s1⟩ := pr
    rw [hcv] at h
    dsimp only at h
    by_cases hv : v = ∅
    · rw [if_pos hv] at h
      injection h with h1
      exact Or.inl h1.symm
    · rw [if_neg hv] at h
      injection h with h1
      exact Or.inr ⟨s1, h1.symm⟩

theorem mkRecordsAux_mem_record (p : List String) (cs : List FsEntry) (l : List DirRecord)
    (hl : mkRecord p cs = Except.ok l) (k : Nat) (rs : List DirRecord)
    (h : mkRecordsAux p cs k = Except.ok rs) : ∀ r ∈ rs, r ∈ l := by
  induction k generalizing rs with
  | zero =>
    injection h with h1
    rw [← h1]
    intro r hr
    cases hr
  | succ k ih =>
    unfold mkRecordsAux at h
    rw [hl] at h
    cases haux : mkRecordsAux p cs k with
    | error err => rw [haux] at h; cases h
    | ok rest =>
      rw [haux] at h
      injection h with h1
      rw [← h1]
      intro r hr
      rcases List.mem_append.mp hr with h2 | h2
      · exact h2
      · exact ih rest haux r h2

theorem mkRecords_shape (p : List String) (cs : List FsEntry) (rs : List DirRecord)
    (h : mkRecords p cs = Except.ok rs) :
    ∀ r ∈ rs, r.path = p ∧ ∀ r2 ∈ rs, r2 = r := by
  unfold mkRecords at h
  cases hl : mkRecord p cs with
  | error err =>
    cases hcnt : cs.countP (fun e => decide (FsEntry.name e = "models.py")) with
    | zero =>
      rw [hcnt] at h
      injection h with h1
      rw [← h1]
      intro r hr
      cases hr
    | succ k =>
      rw [hcnt] at h
      unfold mkRecordsAux at h
      rw [hl] at h
      cases h
  | ok l =>
    have hmem := mkRecordsAux_mem_record p cs l hl _ rs h
    intro r hr
    rcases mkRecord_ok_shape p cs l hl with rfl | ⟨st, rfl⟩
    · cases hmem r hr
    · have hr1 := List.mem_singleton.mp (hmem r hr)
      subst hr1
      exact ⟨rfl, fun r2 hr2 => List.mem_singleton.mp (hmem r2 hr2)⟩

mutual

theorem scanEntry_path_shape (p : List String) (e : FsEntry) (rs : List DirRecord)
    (h : scanEntry p e = Except.ok rs) :
    ∀ r ∈ rs, ∃ q, r.path = p ++ FsEntry.name e :: q := by
  cases e with
  | file nm rb ls sz =>
    unfold scanEntry at h
    injection h with h1
    rw [← h1]
    intro r hr
    cases hr
  | dir n cs =>
    unfold scanEntry at h
    cases hmk : mkRecords (p ++ [n]) cs with
    | error err => rw [hmk] at h; cases h
    | ok a =>
      rw [hmk] at h
      cases hsc : scanEntries (p ++ [n]) cs with
      | error err => rw [hsc] at h; cases h
      | ok b =>
        rw [hsc] at h
        injection h with h1
        rw [← h1]
        intro r hr
        rcases List.mem_append.mp hr with hra | hrb
        · exact ⟨[], (mkRecords_shape _ _ a hmk r hra).1⟩
        · obtain ⟨e', he', q', hq'⟩ := scanEntries_path_shape (p ++ [n]) cs b hsc r hrb
          refine ⟨FsEntry.name e' :: q', ?_⟩
          rw [List.append_assoc] at hq'
          exact hq'

theorem scanEntries_path_shape (p : List String) (es : List FsEntry) (rs : List DirRecord)
    (h : scanEntries p es = Except.ok rs) :
    ∀ r ∈ rs, ∃ e, e ∈ es ∧ ∃ q, r.path = p ++ FsEntry.name e :: q := by
  cases es with
  | nil =>
    unfold scanEntries at h
    injection h with h1
    rw [← h1]
    intro r hr
    cases hr
  | cons e es =>
    unfold scanEntries at h
    cases h1 : scanEntry p e with
    | error err => rw [h1] at h; cases h
    | ok a =>
      rw [h1] at h
      cases h2 : scanEntries p es with
      | error err => rw [h2] at h; cases h
      | ok b =>
        rw [h2] at h
        injection h with h3
        rw [← h3]
        intro r hr
        rcases List.mem_append.mp hr with hra | hrb
        · obtain ⟨q, hq⟩ := scanEntry_path_shape p e a h1 r hra
          exact ⟨e, List.mem_cons_self _ _, q, hq⟩
        · obtain ⟨e', he', q, hq⟩ := scanEntries_path_shape p es b h2 r hrb
          exact ⟨e', List.mem_cons_of_mem _ he', q, hq⟩

end

mutual

theorem scanEntry_path_inj (p : List String) (e : FsEntry) (rs : List DirRecord)
    (hwf : wfEntry e = true) (h : scanEntry p e = Except.ok rs) :
    ∀ r1 ∈ rs, ∀ r2 ∈ rs, r1.path = r2.path → r1 = r2 := by
  cases e with
  | file nm rb ls sz =>
    unfold scanEntry at h
    injection h with h1
    rw [← h1]
    intro r1 hr1
    cases hr1
  | dir n cs =>
    unfold scanEntry at h
    unfold wfEntry at hwf
    cases hmk : mkRecords (p ++ [n]) cs with
    | error err => rw [hmk] at h; cases h
    | ok a =>
      rw [hmk] at h
      cases hsc : scanEntries (p ++ [n]) cs with
      | error err => rw [hsc] at h; cases h
      | ok b =>
        rw [hsc] at h
        injection h with h1
        rw [← h1]
        intro r1 hr1 r2 hr2 hpath
        rcases List.mem_append.mp hr1 with ha1 | hb1 <;>
          rcases List.mem_append.mp hr2 with ha2 | hb2
        · exact ((mkRecords_shape _ _ a hmk r1 ha1).2 r2 ha2).symm
        · exfalso
          have hp1 := (mkRecords_shape _ _ a hmk r1 ha1).1
          obtain ⟨e', he', q, hq⟩ := scanEntries_path_shape (p ++ [n]) cs b hsc r2 hb2
          rw [hp1, hq] at hpath
          have hlen := congrArg List.length hpath
          simp [List.length_append] at hlen
        · exfalso
          have hp2 := (mkRecords_shape _ _ a hmk r2 ha2).1
          obtain ⟨e', he', q, hq⟩ := scanEntries_path_shape (p ++ [n]) cs b hsc r1 hb1
          rw [hp2, hq] at hpath
          have hlen := congrArg List.length hpath
          simp [List.length_append] at hlen
        · exact scanEntries_path_inj (p ++ [n]) cs b hwf hsc r1 hb1 r2 hb2 hpath

theorem scanEntries_path_inj (p : List String) (es : List FsEntry) (rs : List DirRecord)
    (hwf : wfList es = true) (h : scanEntries p es = Except.ok rs) :
    ∀ r1 ∈ rs, ∀ r2 ∈ rs, r1.path = r2.path → r1 = r2 := by
  cases es with
  | nil =>
    unfold scanEntries at h
    injection h with h1
    rw [← h1]
    intro r1 hr1
    cases hr1
  | cons e es =>
    unfold scanEntries at h
    unfold wfList at hwf
    rw [Bool.and_eq_true, Bool.and_eq_true] at hwf
    obtain ⟨⟨hwe, hnm⟩, hwes⟩ := hwf
    have hnm' : FsEntry.name e ∉ es.map FsEntry.name := by
      simpa using hnm
    cases h1 : scanEntry p e with
    | error err => rw [h1] at h; cases h
    | ok a =>
      rw [h1] at h
      cases h2 : scanEntries p es with
      | error err => rw [h2] at h; cases h
      | ok b =>
        rw [h2] at h
        injection h with h3
        rw [← h3]
        intro r1 hr1 r2 hr2 hpath
        rcases List.mem_append.mp hr1 with ha1 | hb1 <;>
          rcases List.mem_append.mp hr2 with ha2 | hb2
        · exact scanEntry_path_inj p e a hwe h1 r1 ha1 r2 ha2 hpath
        · exfalso
          obtain ⟨q1, hq1⟩ := scanEntry_path_shape p e a h1 r1 ha1
          obtain ⟨e', he', q2, hq2⟩ := scanEntries_path_shape p es b h2 r2 hb2
          rw [hq1, hq2] at hpath
          have hc := List.append_cancel_left hpath
          injection hc with hc1 hc2
          exact hnm' (by rw [hc1]; exact List.mem_map_of_mem _ he')
        · exfalso
          obtain ⟨q1, hq1⟩ := scanEntry_path_shape p e a h1 r2 ha2
          obtain ⟨e', he', q2, hq2⟩ := scanEntries_path_shape p es b h2 r1 hb1
          rw [hq1, hq2] at hpath
          have hc := List.append_cancel_left hpath
          injection hc with hc1 hc2
          exact hnm' (by rw [← hc1]; exact List.mem_map_of_mem _ he')
        · exact scanEntries_path_inj p es b hwes h2 r1 hb1 r2 hb2 hpath

end

/-- Claim C7: two scanner records denote the same directory exactly when
their paths are equal: on a well-formed tree (sibling names pairwise
distinct, as on a real filesystem), any two records in the output of
`find_api_dirs` satisfy `r1.path = r2.path ↔ r1 = r2`, so the output
contains at most one record per directory path even though the walk can
visit many directories. -/
theorem find_api_dirs_path_identity (base : List FsEntry) (recs : List DirRecord)
    (hwf : wfList base = true) (h : findApiDirs base = Except.ok recs) :
    ∀ r1 ∈ recs, ∀ r2 ∈ recs, (r1.path = r2.path ↔ r1 = r2) := by
  unfold findApiDirs at h
  cases hmk : mkRecords [] base with
  | error err => rw [hmk] at h; cases h
  | ok a =>
    rw [hmk] at h
    cases hsc : scanEntries [] base with
    | error err => rw [hsc] at h; cases h
    | ok b =>
      rw [hsc] at h
      injection h with h1
      rw [← h1]
      intro r1 hr1 r2 hr2
      constructor
      · intro hpath
        rcases List.mem_append.mp hr1 with ha1 | hb1 <;>
          rcases List.mem_append.mp hr2 with ha2 | hb2
        · exact ((mkRecords_shape _ _ a hmk r1 ha1).2 r2 ha2).symm
        · exfalso
          have hp1 := (mkRecords_shape _ _ a hmk r1 ha1).1
          obtain ⟨e', he', q, hq⟩ := scanEntries_path_shape [] base b hsc r2 hb2
          rw [hp1, hq] at hpath
          have hlen := congrArg List.length hpath
          simp at hlen
        · exfalso
          have hp2 := (mkRecords_shape _ _ a hmk r2 ha2).1
          obtain ⟨e', he', q, hq⟩ := scanEntries_path_shape [] base b hsc r1 hb1
          rw [hp2, hq] at hpath
          have hlen := congrArg List.length hpath
          simp at hlen
        · exact scanEntries_path_inj [] base b hwf hsc r1 hb1 r2 hb2 hpath
      · intro h12
        rw [h12]

/-- Witness for claim C1 at the concrete directory `exDir`. -/
theorem trim_deletes_exactly_unkept_witness :
    computeVersions (mkApiDir exDir)
      = Except.ok (["v7_0"].toFinset, ApiDirState.mk exDir ∅ (some (["v7_0"].toFinset))) ∧
    (["v7_0"].toFinset : Finset String) ≠ ∅ ∧
    ∃ s2, trimOtherVersions (mkApiDir exDir)
        = Except.ok (s2,
          ((mkApiDir exDir).children.filter
            (fun e => shouldDelete (["v7_0"].toFinset) e)).length) ∧
      ∀ e, e ∈ s2.children ↔ e ∈ (mkApiDir exDir).children ∧
        ¬(FsEntry.isDir e = true ∧ matchesGlob (FsEntry.name e) = true ∧
          matchesVDigit (FsEntry.name e) = true ∧
          FsEntry.name e ∉ (["v7_0"].toFinset : Finset String)) :=
  ⟨rfl, by decide,
    trim_deletes_exactly_unkept (mkApiDir exDir) (["v7_0"].toFinset)
      (ApiDirState.mk exDir ∅ (some (["v7_0"].toFinset))) rfl (by decide)⟩

/-- Witness for claim C2 at the concrete directory `exDir`. -/
theorem trim_preserves_keepset_witness :
    trimOtherVersions (mkApiDir exDir)
      = Except.ok (ApiDirState.mk exDirTrimmed ∅ (some (["v7_0"].toFinset)), 1) ∧
    ((∀ e ∈ (mkApiDir exDir).children,
        FsEntry.name e ∈ (["v7_0"].toFinset : Finset String) →
          e ∈ (ApiDirState.mk exDirTrimmed ∅ (some (["v7_0"].toFinset))).children) ∧
      (ApiDirState.mk exDirTrimmed ∅ (some (["v7_0"].toFinset))).children.Sublist
        (mkApiDir exDir).children ∧
      (ApiDirState.mk exDirTrimmed ∅ (some (["v7_0"].toFinset))).keep
        = (mkApiDir exDir).keep) :=
  ⟨rfl,
    trim_preserves_keepset (mkApiDir exDir) (["v7_0"].toFinset)
      (ApiDirState.mk exDir ∅ (some (["v7_0"].toFinset)))
      (ApiDirState.mk exDirTrimmed ∅ (some (["v7_0"].toFinset))) 1 rfl rfl⟩

/-- Witness for claim C3 at the concrete directory `exDir`. -/
theorem trim_never_deletes_nonversion_names_witness :
    trimOtherVersions (mkApiDir exDir)
      = Except.ok (ApiDirState.mk exDirTrimmed ∅ (some (["v7_0"].toFinset)), 1) ∧
    ∀ e ∈ (mkApiDir exDir).children,
      (matchesGlob (FsEntry.name e) = false ∨ matchesVDigit (FsEntry.name e) = false) →
      e ∈ (ApiDirState.mk exDirTrimmed ∅ (some (["v7_0"].toFinset))).children :=
  ⟨rfl,
    trim_never_deletes_nonversion_names (mkApiDir exDir)
      (ApiDirState.mk exDirTrimmed ∅ (some (["v7_0"].toFinset))) 1 rfl⟩

/-- Witness for claim C10 at the concrete directory `exDir`. -/
theorem trim_never_deletes_files_witness :
    trimOtherVersions (mkApiDir exDir)
      = Except.ok (ApiDirState.mk exDirTrimmed ∅ (some (["v7_0"].toFinset)), 1) ∧
    ∀ e ∈ (mkApiDir exDir).children, FsEntry.isDir e = false →
      e ∈ (ApiDirState.mk exDirTrimmed ∅ (some (["v7_0"].toFinset))).children :=
  ⟨rfl,
    trim_never_deletes_files (mkApiDir exDir)
      (ApiDirState.mk exDirTrimmed ∅ (some (["v7_0"].toFinset))) 1 rfl⟩

/-- Witness for claim C9 at the concrete directory `exDir`. -/
theorem purge_idempotent_witness :
    purgeApiDir (mkApiDir exDir)
      = Except.ok (ApiDirState.mk exDirTrimmed ∅ (some (["v7_0"].toFinset)), 1, 0) ∧
    purgeApiDir (ApiDirState.mk exDirTrimmed ∅ (some (["v7_0"].toFinset)))
      = Except.ok (ApiDirState.mk exDirTrimmed ∅ (some (["v7_0"].toFinset)), 0, 0) :=
  ⟨rfl,
    purge_idempotent (mkApiDir exDir)
      (ApiDirState.mk exDirTrimmed ∅ (some (["v7_0"].toFinset))) 1 0 rfl⟩

/-- Witness for claim C5 at a concrete directory whose manifest has no
matching import line. -/
theorem unversioned_dir_excluded_and_unchanged_witness :
    parseModels [FsEntry.file "models.py" true ["junk"] 4] = Except.ok [] ∧
    mkRecords ["pkg"] [FsEntry.file "models.py" true ["junk"] 4] = Except.ok [] ∧
    trimOtherVersions (mkApiDir [FsEntry.file "models.py" true ["junk"] 4])
      = Except.ok
        ({ mkApiDir [FsEntry.file "models.py" true ["junk"] 4] with cache := some ∅ }, 0) :=
  ⟨rfl,
    (unversioned_dir_excluded_and_unchanged ["pkg"]
      [FsEntry.file "models.py" true ["junk"] 4] rfl).1,
    (unversioned_dir_excluded_and_unchanged ["pkg"]
      [FsEntry.file "models.py" true ["junk"] 4] rfl).2⟩

/-- Witness for the amended claim C6 at a concrete unreadable manifest. -/
theorem unreadable_manifest_aborts_scan_witness :
    ([FsEntry.file "models.py" false ([] : List String) 5].find?
        (fun e => decide (FsEntry.name e = "models.py"))
      = some (FsEntry.file "models.py" false [] 5)) ∧
    parseModels [FsEntry.file "models.py" false [] 5] = Except.error () ∧
    mkRecords ["pkg"] [FsEntry.file "models.py" false [] 5] = Except.error () ∧
    scanEntry ["pkg"] (FsEntry.dir "sub" [FsEntry.file "models.py" false [] 5])
      = Except.error () := by
  have h := unreadable_manifest_aborts_scan ["pkg"]
    [FsEntry.file "models.py" false [] 5] "models.py" [] 5 "sub" rfl
  exact ⟨rfl, h.1, h.2.1, h.2.2⟩

/-- Witness for claim C8 at the concrete directory `exDir`, with one
override list and an override equal to the parsed version. -/
theorem versions_fresh_union_of_overrides_witness :
    parseModels (mkApiDir exDir).children = Except.ok ["v7_0"] ∧
    (([["vX"]] : List (List String)) ≠ [] →
      ∃ st, computeVersions ([["vX"]].foldl keepVersions (mkApiDir exDir))
        = Except.ok ((["v7_0"] : List String).toFinset ∪
            [["vX"]].foldl (fun a k => a ∪ k.toFinset) (mkApiDir exDir).keep, st)) ∧
    ("v7_0" ∈ (["v7_0"] : List String) →
      ∀ s2 n, trimOtherVersions (mkApiDir (mkApiDir exDir).children) = Except.ok (s2, n) →
        ∃ s3, trimOtherVersions (keepVersions (mkApiDir (mkApiDir exDir).children) ["v7_0"])
            = Except.ok (s3, n) ∧ s3.children = s2.children) := by
  have h := versions_fresh_union_of_overrides (mkApiDir exDir) ["v7_0"] [["vX"]] "v7_0" rfl
  exact ⟨rfl, h.1, h.2⟩

/-- Witness for claim C7 at the concrete tree `exScanTree`. -/
theorem find_api_dirs_path_identity_witness :
    wfList exScanTree = true ∧
    findApiDirs exScanTree = Except.ok
      [DirRecord.mk ["pkg"] (ApiDirState.mk exDir ∅ (some (["v7_0"].toFinset)))] ∧
    ((DirRecord.mk ["pkg"] (ApiDirState.mk exDir ∅ (some (["v7_0"].toFinset)))).path
        = (DirRecord.mk ["pkg"] (ApiDirState.mk exDir ∅ (some (["v7_0"].toFinset)))).path ↔
      DirRecord.mk ["pkg"] (ApiDirState.mk exDir ∅ (some (["v7_0"].toFinset)))
        = DirRecord.mk ["pkg"] (ApiDirState.mk exDir ∅ (some (["v7_0"].toFinset)))) := by
  refine ⟨rfl, rfl, ?_⟩
  exact find_api_dirs_path_identity exScanTree
    [DirRecord.mk ["pkg"] (ApiDirState.mk exDir ∅ (some (["v7_0"].toFinset)))] rfl rfl
    (DirRecord.mk ["pkg"] (ApiDirState.mk exDir ∅ (some (["v7_0"].toFinset))))
    (List.mem_singleton.mpr rfl)
    (DirRecord.mk ["pkg"] (ApiDirState.mk exDir ∅ (some (["v7_0"].toFinset))))
    (List.mem_singleton.mpr rfl)

end AzureSdkTrim
